import Mathlib

/-!
Verification of the seat-planner constraint solver (`src/seat-planner.py`).

The three constraint classes (`MaxPerTableConstraint`, `SameTableConstraint`,
`DifferentTableConstraint`), the `swap_kv_list` helper and the problem-building
part of `main` are embedded directly from the source.  The backtracking search
with forward checking is provided by the external `constraint` library (not in
the repository sources) and is modelled from the specification, section 4.6.
-/

namespace SeatPlanner

open List

/-- Association-list lookup, mirroring Python `dict.get` / `assignments.get`:
returns the value of the first matching key, `none` when absent. -/
def alookup {α β : Type} [DecidableEq α] : List (α × β) → α → Option β
  | [], _ => none
  | (k, v) :: rest, g => if k = g then some v else alookup rest g

/-- A partial assignment guest ↦ table id, as an association list in
assignment order (Python dict `assignments`). -/
abbrev Assignment := List (String × Nat)

/-- The per-guest candidate table ids still possible (`domains[variable]`). -/
abbrev Domains := String → List Nat

/-- Pointwise update of one guest's domain (mutated domain object). -/
def updateDomain (domains : Domains) (g : String) (d : List Nat) : Domains :=
  fun x => if x = g then d else domains x

/- ## MaxPerTableConstraint (src/seat-planner.py lines 39-61) -/

/-- The cheap-check loop of `MaxPerTableConstraint.__call__` (lines 44-50):
walk `variables`, counting assigned guests per table; return `none` (False)
as soon as a table's count would exceed `max_per_table`, otherwise the final
counter. -/
def maxCheapLoop (k : Nat) (assignments : Assignment) (counter : Nat → Nat) :
    List String → Option (Nat → Nat)
  | [] => some counter
  | v :: rest =>
    match alookup assignments v with
    | none => maxCheapLoop k assignments counter rest
    | some t =>
      if counter t ≥ k then none
      else maxCheapLoop k assignments
        (fun x => if x = t then counter x + 1 else counter x) rest

/-- Inner loop of the forward-check branch (lines 56-60): walk the values of
one unassigned guest's domain; when `counter[v] > max_per_table`, hide `v`
(`Domain.hideValue` removes the first occurrence, Python `list.remove`) and
return `none` (False) if the domain became empty.  The Python loop iterates
the live list; since the guard can only drop values, walking the initial
element sequence is the same traversal. -/
def maxFcDomainLoop (k : Nat) (counter : Nat → Nat) :
    List Nat → List Nat → Option (List Nat)
  | [], dom => some dom
  | v :: rest, dom =>
    if counter v > k then
      let dom' := dom.erase v
      if dom' = [] then none else maxFcDomainLoop k counter rest dom'
    else maxFcDomainLoop k counter rest dom

/-- Outer loop of the forward-check branch (lines 52-60): for every variable
not in `assignments`, prune its domain via `maxFcDomainLoop`. -/
def maxFcLoop (k : Nat) (counter : Nat → Nat) (assignments : Assignment)
    (domains : Domains) : List String → Option Domains
  | [] => some domains
  | v :: rest =>
    if (alookup assignments v).isNone then
      match maxFcDomainLoop k counter (domains v) (domains v) with
      | none => none
      | some d' => maxFcLoop k counter assignments (updateDomain domains v d') rest
    else maxFcLoop k counter assignments domains rest

/-- `MaxPerTableConstraint.__call__` (lines 43-61).  `none` models returning
`False` (Violated); `some domains'` models returning `True` with the
possibly-pruned domains. -/
def maxPerTableCall (k : Nat) (vars : List String) (domains : Domains)
    (assignments : Assignment) (forwardcheck : Bool) : Option Domains :=
  match maxCheapLoop k assignments (fun _ => 0) vars with
  | none => none
  | some counter =>
    if forwardcheck then maxFcLoop k counter assignments domains vars
    else some domains

/- ## SameTableConstraint (src/seat-planner.py lines 64-90) -/

/-- The pruning loop `for v in domain2[:]: if v != value: domain2.hideValue(v)`
(lines 83-84 and 87-88): iterate a copy (first argument) of the domain,
erasing from the live domain (second argument) every value different from
`value`. -/
def hideAllNe (value : Nat) : List Nat → List Nat → List Nat
  | [], dom => dom
  | v :: rest, dom =>
    if v ≠ value then hideAllNe value rest (dom.erase v)
    else hideAllNe value rest dom

/-- `SameTableConstraint.__call__` (lines 71-90): cheap check returns `False`
only when both guests are assigned to different tables; with forward checking,
when exactly one guest is assigned, every other value is hidden from the other
guest's domain.  The function returns `True` in every remaining case — it
never checks whether the pruned domain became empty. -/
def sameTableCall (name1 name2 : String) (domains : Domains)
    (assignments : Assignment) (forwardcheck : Bool) : Option Domains :=
  match alookup assignments name1, alookup assignments name2 with
  | some value, some value2 =>
    if value2 ≠ value then none else some domains
  | some value, none =>
    if forwardcheck then
      some (updateDomain domains name2
        (hideAllNe value (domains name2) (domains name2)))
    else some domains
  | none, some value2 =>
    if forwardcheck then
      some (updateDomain domains name1
        (hideAllNe value2 (domains name1) (domains name1)))
    else some domains
  | none, none => some domains

/- ## DifferentTableConstraint (src/seat-planner.py lines 93-119) -/

/-- The pruning loop `for v in domain2[:]: if v == value: domain2.hideValue(v)`
(lines 112-113 and 117-118). -/
def hideAllEq (value : Nat) : List Nat → List Nat → List Nat
  | [], dom => dom
  | v :: rest, dom =>
    if v = value then hideAllEq value rest (dom.erase v)
    else hideAllEq value rest dom

/-- `DifferentTableConstraint.__call__` (lines 100-119): cheap check returns
`False` only when both guests are assigned to the same table; with forward
checking, when exactly one guest is assigned, its value is hidden from the
other guest's domain.  As with `sameTableCall`, an emptied domain is not
detected. -/
def differentTableCall (name1 name2 : String) (domains : Domains)
    (assignments : Assignment) (forwardcheck : Bool) : Option Domains :=
  match alookup assignments name1, alookup assignments name2 with
  | some value, some value2 =>
    if value2 = value then none else some domains
  | some value, none =>
    if forwardcheck then
      some (updateDomain domains name2
        (hideAllEq value (domains name2) (domains name2)))
    else some domains
  | none, some value2 =>
    if forwardcheck then
      some (updateDomain domains name1
        (hideAllEq value2 (domains name1) (domains name1)))
    else some domains
  | none, none => some domains

/- ## Constraint variants and the problem built by `main` -/

/-- The closed set of constraint shapes registered by `main`
(lines 155, 158, 166). -/
inductive Constr where
  | maxPerTable (k : Nat)
  | sameTable (name1 name2 : String)
  | differentTable (name1 name2 : String)
deriving DecidableEq

/-- Dispatch one constraint evaluation.  Every constraint is added to the
`Problem` without an explicit variable list, so each is evaluated against the
full ordered variable list. -/
def evalConstr (c : Constr) (vars : List String) (domains : Domains)
    (assignments : Assignment) (forwardcheck : Bool) : Option Domains :=
  match c with
  | .maxPerTable k => maxPerTableCall k vars domains assignments forwardcheck
  | .sameTable a b => sameTableCall a b domains assignments forwardcheck
  | .differentTable a b => differentTableCall a b domains assignments forwardcheck

/-- One pass over a prefer/avoid pair list (lines 156-171 of `main`): a pair
whose two names are known becomes a constraint; otherwise the run raises
`Exception(f"{name} not in guests!")`, the first unknown name of the first
bad pair, checking the pair's first component first. -/
def addPairConstraints (mk : String → String → Constr) (guests : List String) :
    List (String × String) → Except String (List Constr)
  | [] => .ok []
  | (a, b) :: rest =>
    if a ∈ guests ∧ b ∈ guests then
      match addPairConstraints mk guests rest with
      | .ok cs => .ok (mk a b :: cs)
      | .error e => .error e
    else if a ∉ guests then .error (a ++ " not in guests!")
    else .error (b ++ " not in guests!")

/-- The problem construction of `main` (lines 149-171): capacity
`per_table = int((total_guests+1)/num_tables)` (Python true division of two
machine-size integers followed by truncation, i.e. floor division for these
non-negative operands), then the capacity constraint, then one constraint per
prefer pair, then one per avoid pair. -/
def buildProblem (guests : List String) (numTables : Nat)
    (prefer avoid : List (String × String)) : Except String (List Constr) :=
  let per_table := (guests.length + 1) / numTables
  match addPairConstraints Constr.sameTable guests prefer with
  | .error e => .error e
  | .ok ps =>
    match addPairConstraints Constr.differentTable guests avoid with
    | .error e => .error e
    | .ok avs => .ok (Constr.maxPerTable per_table :: (ps ++ avs))

/- ## Search engine -/

/-- Thread the domains through every registered constraint; `none` as soon as
one evaluation reports Violated. -/
def evalAll (cs : List Constr) (vars : List String) (domains : Domains)
    (assignments : Assignment) (forwardcheck : Bool) : Option Domains :=
  match cs with
  | [] => some domains
  | c :: rest =>
    match evalConstr c vars domains assignments forwardcheck with
    | none => none
    | some d' => evalAll rest vars d' assignments forwardcheck

/-- Modelled from the spec: the backtracking search with forward checking of
the external `constraint` library (spec section 4.6), which is not part of
the repository sources.  Variables are assigned in registration order; for
each candidate value remaining in the current variable's domain, in domain
order: tentatively assign it, evaluate every constraint (cheap check plus
forward-check pruning); if any is Violated or the pruning emptied the domain
of a still-unassigned variable, drop the candidate; otherwise recurse.  A
complete assignment is emitted as a Solution.  Backtracking/undo is implicit:
sibling branches reuse the unpruned domains. -/
def searchAux (cs : List Constr) (allVars : List String) :
    List String → Domains → Assignment → List Assignment
  | [], _, a => [a]
  | v :: rest, doms, a =>
    (doms v).flatMap (fun t =>
      match evalAll cs allVars doms (a ++ [(v, t)]) true with
      | none => []
      | some doms' =>
        if rest.any (fun g => (doms' g).isEmpty) then []
        else searchAux cs allVars rest doms' (a ++ [(v, t)]))

/-- Modelled from the spec: the full solution sequence of
`problem.getSolutionIter()` — every variable's domain starts as
`range(1, num_tables+1)` (line 154) and the search runs from the empty
assignment. -/
def getSolutions (cs : List Constr) (guests : List String) (numTables : Nat) :
    List Assignment :=
  searchAux cs guests guests (fun _ => List.range' 1 numTables) []

/- ## swap_kv_list (src/seat-planner.py lines 9-16) -/

/-- `r[v].append(k)`: extend the list stored at the first entry for key `v`. -/
def updList (r : List (Nat × List String)) (t : Nat) (g : String) :
    List (Nat × List String) :=
  match r with
  | [] => []
  | (t', l) :: rest =>
    if t' = t then (t', l ++ [g]) :: rest else (t', l) :: updList rest t g

/-- One iteration of the `swap_kv_list` loop body (lines 11-15). -/
def swapStep (r : List (Nat × List String)) (kv : String × Nat) :
    List (Nat × List String) :=
  match alookup r kv.2 with
  | none => r ++ [(kv.2, [kv.1])]
  | some _ => updList r kv.2 kv.1

/-- `swap_kv_list` (lines 9-16): invert a guest ↦ table mapping into a
table ↦ guest-list mapping, in first-seen key order. -/
def swap_kv_list (d : List (String × Nat)) : List (Nat × List String) :=
  d.foldl swapStep []

/-- All (guest, table) pairs recoverable from an inverted mapping. -/
def entriesOf (r : List (Nat × List String)) : List (String × Nat) :=
  r.flatMap (fun p => p.2.map (fun g => (g, p.1)))

/-- Modelled from the spec: the capacity derivation `ceil(|guests| / N)`
named in section 6, for comparison with the source's formula. -/
def specCeil (a b : Nat) : Nat := (a + b - 1) / b

/- ## Lemmas: association-list lookup -/

theorem alookup_eq_none {α β : Type} [DecidableEq α] (l : List (α × β)) (k : α) :
    alookup l k = none ↔ k ∉ l.map Prod.fst := by
  induction l with
  | nil => simp [alookup]
  | cons p rest ih =>
    obtain ⟨k', v⟩ := p
    by_cases h : k' = k
    · subst h
      simp [alookup]
    · have hne : ¬ k = k' := fun hk => h hk.symm
      simp [alookup, h, hne, ih]

theorem alookup_isSome_of_mem_keys {α β : Type} [DecidableEq α]
    {l : List (α × β)} {k : α} (h : k ∈ l.map Prod.fst) :
    ∃ v, alookup l k = some v := by
  cases hv : alookup l k with
  | none => exact absurd h ((alookup_eq_none l k).mp hv)
  | some v => exact ⟨v, rfl⟩

theorem alookup_mem {α β : Type} [DecidableEq α]
    {l : List (α × β)} {k : α} {v : β} (h : alookup l k = some v) : (k, v) ∈ l := by
  induction l with
  | nil => simp [alookup] at h
  | cons p rest ih =>
    obtain ⟨k', v'⟩ := p
    by_cases hk : k' = k
    · subst hk
      simp [alookup] at h
      subst h
      exact List.mem_cons_self _ _
    · simp [alookup, hk] at h
      exact List.mem_cons_of_mem _ (ih h)

theorem alookup_eq_some_of_mem {α β : Type} [DecidableEq α]
    {l : List (α × β)} {k : α} {v : β} (hnd : (l.map Prod.fst).Nodup)
    (h : (k, v) ∈ l) : alookup l k = some v := by
  induction l with
  | nil => simp at h
  | cons p rest ih =>
    obtain ⟨k', v'⟩ := p
    simp only [List.map_cons, List.nodup_cons] at hnd
    rcases List.mem_cons.mp h with heq | hmem
    · rw [Prod.mk.injEq] at heq
      obtain ⟨rfl, rfl⟩ := heq
      simp [alookup]
    · have hk : k' ≠ k := by
        intro hkk
        exact hnd.1 (by rw [hkk]; exact List.mem_map.mpr ⟨(k, v), hmem, rfl⟩)
      simp [alookup, hk, ih hnd.2 hmem]

/- ## Lemmas: domain pruning only removes values -/

theorem hideAllNe_subset (t : Nat) : ∀ (c dom : List Nat), hideAllNe t c dom ⊆ dom := by
  intro c
  induction c with
  | nil => intro dom; exact fun _ hx => hx
  | cons v rest ih =>
    intro dom
    simp only [hideAllNe]
    by_cases hv : v ≠ t
    · rw [if_pos hv]
      exact (ih (dom.erase v)).trans (List.erase_subset v dom)
    · rw [if_neg hv]
      exact ih dom

theorem hideAllEq_subset (t : Nat) : ∀ (c dom : List Nat), hideAllEq t c dom ⊆ dom := by
  intro c
  induction c with
  | nil => intro dom; exact fun _ hx => hx
  | cons v rest ih =>
    intro dom
    simp only [hideAllEq]
    by_cases hv : v = t
    · rw [if_pos hv]
      exact (ih (dom.erase v)).trans (List.erase_subset v dom)
    · rw [if_neg hv]
      exact ih dom

theorem hideAllNe_self_eq_nil (t : Nat) :
    ∀ l : List Nat, t ∉ l → hideAllNe t l l = [] := by
  intro l
  induction l with
  | nil => intro _; rfl
  | cons v rest ih =>
    intro h
    have hv : v ≠ t := fun hvt => h (hvt ▸ List.mem_cons_self v rest)
    have hr : t ∉ rest := fun ht => h (List.mem_cons_of_mem v ht)
    simp only [hideAllNe]
    rw [if_pos hv, List.erase_cons_head]
    exact ih hr

theorem hideAllEq_self_eq_nil (t : Nat) :
    ∀ l : List Nat, (∀ v ∈ l, v = t) → hideAllEq t l l = [] := by
  intro l
  induction l with
  | nil => intro _; rfl
  | cons v rest ih =>
    intro h
    have hv : v = t := h v (List.mem_cons_self v rest)
    have hr : ∀ x ∈ rest, x = t := fun x hx => h x (List.mem_cons_of_mem v hx)
    simp only [hideAllEq]
    rw [if_pos hv, List.erase_cons_head]
    exact ih hr

theorem maxFcDomainLoop_subset (k : Nat) (cnt : Nat → Nat) :
    ∀ (c dom d' : List Nat), maxFcDomainLoop k cnt c dom = some d' → d' ⊆ dom := by
  intro c
  induction c with
  | nil =>
    intro dom d' h
    simp only [maxFcDomainLoop] at h
    cases h
    exact fun _ hx => hx
  | cons v rest ih =>
    intro dom d' h
    simp only [maxFcDomainLoop] at h
    by_cases hc : cnt v > k
    · rw [if_pos hc] at h
      by_cases hnil : dom.erase v = []
      · rw [if_pos hnil] at h; cases h
      · rw [if_neg hnil] at h
        exact (ih _ _ h).trans (List.erase_subset v dom)
    · rw [if_neg hc] at h
      exact ih _ _ h

theorem maxFcDomainLoop_noop (k : Nat) (cnt : Nat → Nat) (hcnt : ∀ t, cnt t ≤ k) :
    ∀ (c dom : List Nat), maxFcDomainLoop k cnt c dom = some dom := by
  intro c
  induction c with
  | nil => intro dom; rfl
  | cons v rest ih =>
    intro dom
    have hc : ¬ cnt v > k := not_lt.mpr (hcnt v)
    simp only [maxFcDomainLoop, hc, if_neg, ite_false]
    exact ih dom

theorem maxFcLoop_subset (k : Nat) (cnt : Nat → Nat) (agn : Assignment) :
    ∀ (vs : List String) (doms : Domains) (d' : Domains),
      maxFcLoop k cnt agn doms vs = some d' → ∀ g, d' g ⊆ doms g := by
  intro vs
  induction vs with
  | nil =>
    intro doms d' h g
    simp only [maxFcLoop] at h
    cases h
    exact fun _ hx => hx
  | cons v rest ih =>
    intro doms d' h g
    simp only [maxFcLoop] at h
    by_cases hu : (alookup agn v).isNone
    · rw [if_pos hu] at h
      cases hd : maxFcDomainLoop k cnt (doms v) (doms v) with
      | none => rw [hd] at h; cases h
      | some d1 =>
        rw [hd] at h
        have hsub := ih _ _ h g
        by_cases hg : g = v
        · subst hg
          have : updateDomain doms g d1 g = d1 := by simp [updateDomain]
          rw [this] at hsub
          exact hsub.trans (maxFcDomainLoop_subset k cnt _ _ _ hd)
        · have : updateDomain doms v d1 g = doms g := by simp [updateDomain, hg]
          rw [this] at hsub
          exact hsub
    · rw [if_neg hu] at h
      exact ih _ _ h g

theorem maxFcLoop_noop (k : Nat) (cnt : Nat → Nat) (agn : Assignment)
    (hcnt : ∀ t, cnt t ≤ k) :
    ∀ (vs : List String) (doms : Domains) (d' : Domains),
      maxFcLoop k cnt agn doms vs = some d' → ∀ g, d' g = doms g := by
  intro vs
  induction vs with
  | nil =>
    intro doms d' h g
    simp only [maxFcLoop] at h
    cases h
    rfl
  | cons v rest ih =>
    intro doms d' h g
    simp only [maxFcLoop] at h
    by_cases hu : (alookup agn v).isNone
    · rw [if_pos hu, maxFcDomainLoop_noop k cnt hcnt] at h
      have := ih _ _ h g
      rw [this]
      by_cases hg : g = v <;> simp [updateDomain, hg]
    · rw [if_neg hu] at h
      exact ih _ _ h g

/- ## Lemmas: the capacity counter -/

theorem maxCheapLoop_le (k : Nat) (agn : Assignment) :
    ∀ (vs : List String) (cnt c' : Nat → Nat), (∀ t, cnt t ≤ k) →
      maxCheapLoop k agn cnt vs = some c' → ∀ t, c' t ≤ k := by
  intro vs
  induction vs with
  | nil =>
    intro cnt c' hcnt h t
    simp only [maxCheapLoop] at h
    cases h
    exact hcnt t
  | cons v rest ih =>
    intro cnt c' hcnt h t
    cases hl : alookup agn v with
    | none =>
      simp only [maxCheapLoop, hl] at h
      exact ih _ _ hcnt h t
    | some tv =>
      simp only [maxCheapLoop, hl] at h
      by_cases hge : cnt tv ≥ k
      · rw [if_pos hge] at h; cases h
      · rw [if_neg hge] at h
        refine ih _ _ ?_ h t
        intro s
        by_cases hs : s = tv
        · subst hs
          simp only [if_pos rfl]
          exact Nat.succ_le_of_lt (not_le.mp hge)
        · simp only [if_neg hs]
          exact hcnt s

theorem maxCheapLoop_count (k : Nat) (agn : Assignment) :
    ∀ (vs : List String) (cnt c' : Nat → Nat),
      maxCheapLoop k agn cnt vs = some c' →
      ∀ t, c' t = cnt t + (vs.filter (fun v => alookup agn v = some t)).length := by
  intro vs
  induction vs with
  | nil =>
    intro cnt c' h t
    simp only [maxCheapLoop] at h
    cases h
    simp
  | cons v rest ih =>
    intro cnt c' h t
    cases hl : alookup agn v with
    | none =>
      simp only [maxCheapLoop, hl] at h
      rw [ih _ _ h t]
      have hfilt : (v :: rest).filter (fun x => alookup agn x = some t) =
          rest.filter (fun x => alookup agn x = some t) := by
        rw [List.filter_cons_of_neg]
        simp [hl]
      rw [hfilt]
    | some tv =>
      simp only [maxCheapLoop, hl] at h
      by_cases hge : cnt tv ≥ k
      · rw [if_pos hge] at h; cases h
      · rw [if_neg hge] at h
        rw [ih _ _ h t]
        by_cases ht : tv = t
        · subst ht
          have hfilt : (v :: rest).filter (fun x => alookup agn x = some tv) =
              v :: rest.filter (fun x => alookup agn x = some tv) := by
            rw [List.filter_cons_of_pos]
            simp [hl]
          rw [hfilt]
          simp only [List.length_cons, if_true, ite_true, eq_self_iff_true]
          omega
        · have ht' : ¬ t = tv := fun hh => ht hh.symm
          have hfilt : (v :: rest).filter (fun x => alookup agn x = some t) =
              rest.filter (fun x => alookup agn x = some t) := by
            rw [List.filter_cons_of_neg]
            simp [hl, ht]
          rw [hfilt]
          simp only [if_neg ht']

/- ## Lemmas: single constraint evaluations -/

theorem maxPerTableCall_cheap {k : Nat} {vars : List String} {doms d' : Domains}
    {agn : Assignment} {fc : Bool} (h : maxPerTableCall k vars doms agn fc = some d') :
    ∃ c', maxCheapLoop k agn (fun _ => 0) vars = some c' := by
  unfold maxPerTableCall at h
  cases hc : maxCheapLoop k agn (fun _ => 0) vars with
  | none => rw [hc] at h; cases h
  | some c' => exact ⟨c', rfl⟩

theorem maxPerTableCall_subset {k : Nat} {vars : List String} {doms d' : Domains}
    {agn : Assignment} {fc : Bool} (h : maxPerTableCall k vars doms agn fc = some d') :
    ∀ g, d' g ⊆ doms g := by
  unfold maxPerTableCall at h
  cases hc : maxCheapLoop k agn (fun _ => 0) vars with
  | none => rw [hc] at h; cases h
  | some c' =>
    rw [hc] at h
    cases fc with
    | false =>
      simp only [Bool.false_eq_true, if_false] at h
      cases h
      exact fun g _ hx => hx
    | true =>
      simp only [if_true] at h
      exact maxFcLoop_subset k c' agn vars doms d' h

theorem maxPerTableCall_noop {k : Nat} {vars : List String} {doms d' : Domains}
    {agn : Assignment} (h : maxPerTableCall k vars doms agn true = some d') :
    ∀ g, d' g = doms g := by
  unfold maxPerTableCall at h
  cases hc : maxCheapLoop k agn (fun _ => 0) vars with
  | none => rw [hc] at h; cases h
  | some c' =>
    rw [hc] at h
    simp only [if_true] at h
    have hle : ∀ t, c' t ≤ k :=
      maxCheapLoop_le k agn vars _ c' (fun _ => Nat.zero_le k) hc
    exact maxFcLoop_noop k c' agn hle vars doms d' h

theorem sameTableCall_subset {n1 n2 : String} {doms d' : Domains}
    {agn : Assignment} {fc : Bool} (h : sameTableCall n1 n2 doms agn fc = some d') :
    ∀ g, d' g ⊆ doms g := by
  intro g
  cases h1 : alookup agn n1 with
  | some t1 =>
    cases h2 : alookup agn n2 with
    | some t2 =>
      simp only [sameTableCall, h1, h2] at h
      by_cases hne : t2 ≠ t1
      · rw [if_pos hne] at h; cases h
      · rw [if_neg hne] at h; cases h; exact fun _ hx => hx
    | none =>
      simp only [sameTableCall, h1, h2] at h
      cases fc with
      | false =>
        simp only [Bool.false_eq_true, if_false] at h
        cases h
        exact fun _ hx => hx
      | true =>
        simp only [if_true] at h
        cases h
        by_cases hg : g = n2
        · subst hg
          simp only [updateDomain, if_pos rfl]
          exact hideAllNe_subset t1 _ _
        · simp only [updateDomain, if_neg hg]
          exact fun _ hx => hx
  | none =>
    cases h2 : alookup agn n2 with
    | some t2 =>
      simp only [sameTableCall, h1, h2] at h
      cases fc with
      | false =>
        simp only [Bool.false_eq_true, if_false] at h
        cases h
        exact fun _ hx => hx
      | true =>
        simp only [if_true] at h
        cases h
        by_cases hg : g = n1
        · subst hg
          simp only [updateDomain, if_pos rfl]
          exact hideAllNe_subset t2 _ _
        · simp only [updateDomain, if_neg hg]
          exact fun _ hx => hx
    | none =>
      simp only [sameTableCall, h1, h2] at h
      cases h
      exact fun _ hx => hx

theorem differentTableCall_subset {n1 n2 : String} {doms d' : Domains}
    {agn : Assignment} {fc : Bool} (h : differentTableCall n1 n2 doms agn fc = some d') :
    ∀ g, d' g ⊆ doms g := by
  intro g
  cases h1 : alookup agn n1 with
  | some t1 =>
    cases h2 : alookup agn n2 with
    | some t2 =>
      simp only [differentTableCall, h1, h2] at h
      by_cases heq : t2 = t1
      · rw [if_pos heq] at h; cases h
      · rw [if_neg heq] at h; cases h; exact fun _ hx => hx
    | none =>
      simp only [differentTableCall, h1, h2] at h
      cases fc with
      | false =>
        simp only [Bool.false_eq_true, if_false] at h
        cases h
        exact fun _ hx => hx
      | true =>
        simp only [if_true] at h
        cases h
        by_cases hg : g = n2
        · subst hg
          simp only [updateDomain, if_pos rfl]
          exact hideAllEq_subset t1 _ _
        · simp only [updateDomain, if_neg hg]
          exact fun _ hx => hx
  | none =>
    cases h2 : alookup agn n2 with
    | some t2 =>
      simp only [differentTableCall, h1, h2] at h
      cases fc with
      | false =>
        simp only [Bool.false_eq_true, if_false] at h
        cases h
        exact fun _ hx => hx
      | true =>
        simp only [if_true] at h
        cases h
        by_cases hg : g = n1
        · subst hg
          simp only [updateDomain, if_pos rfl]
          exact hideAllEq_subset t2 _ _
        · simp only [updateDomain, if_neg hg]
          exact fun _ hx => hx
    | none =>
      simp only [differentTableCall, h1, h2] at h
      cases h
      exact fun _ hx => hx

theorem sameTableCall_both_assigned {n1 n2 : String} {doms d' : Domains}
    {agn : Assignment} {fc : Bool} {t1 t2 : Nat}
    (h1 : alookup agn n1 = some t1) (h2 : alookup agn n2 = some t2)
    (h : sameTableCall n1 n2 doms agn fc = some d') : t2 = t1 := by
  simp only [sameTableCall, h1, h2] at h
  by_cases hne : t2 ≠ t1
  · rw [if_pos hne] at h; cases h
  · exact not_not.mp hne

theorem differentTableCall_both_assigned {n1 n2 : String} {doms d' : Domains}
    {agn : Assignment} {fc : Bool} {t1 t2 : Nat}
    (h1 : alookup agn n1 = some t1) (h2 : alookup agn n2 = some t2)
    (h : differentTableCall n1 n2 doms agn fc = some d') : t2 ≠ t1 := by
  simp only [differentTableCall, h1, h2] at h
  by_cases heq : t2 = t1
  · rw [if_pos heq] at h; cases h
  · exact heq

theorem differentTableCall_self_none {n : String} {doms : Domains}
    {agn : Assignment} {fc : Bool} {t : Nat} (h1 : alookup agn n = some t) :
    differentTableCall n n doms agn fc = none := by
  simp only [differentTableCall, h1]
  simp

theorem sameTableCall_self {n : String} {doms : Domains}
    {agn : Assignment} {fc : Bool} :
    sameTableCall n n doms agn fc = some doms := by
  cases h1 : alookup agn n with
  | none => simp only [sameTableCall, h1]
  | some t => simp [sameTableCall, h1]

/- ## Lemmas: threading all constraints -/

theorem evalConstr_subset {c : Constr} {vars : List String} {doms d' : Domains}
    {agn : Assignment} {fc : Bool} (h : evalConstr c vars doms agn fc = some d') :
    ∀ g, d' g ⊆ doms g := by
  cases c with
  | maxPerTable k => exact maxPerTableCall_subset h
  | sameTable a b => exact sameTableCall_subset h
  | differentTable a b => exact differentTableCall_subset h

theorem evalAll_subset {cs : List Constr} : ∀ {vars : List String}
    {doms d' : Domains} {agn : Assignment} {fc : Bool},
    evalAll cs vars doms agn fc = some d' → ∀ g, d' g ⊆ doms g := by
  induction cs with
  | nil =>
    intro vars doms d' agn fc h g
    simp only [evalAll] at h
    cases h
    exact fun _ hx => hx
  | cons c rest ih =>
    intro vars doms d' agn fc h g
    simp only [evalAll] at h
    cases hc : evalConstr c vars doms agn fc with
    | none => rw [hc] at h; cases h
    | some d1 =>
      rw [hc] at h
      exact (ih h g).trans (evalConstr_subset hc g)

theorem evalAll_constr {cs : List Constr} : ∀ {vars : List String}
    {doms d' : Domains} {agn : Assignment} {fc : Bool} {c : Constr},
    evalAll cs vars doms agn fc = some d' → c ∈ cs →
    ∃ d0 d1, evalConstr c vars d0 agn fc = some d1 := by
  induction cs with
  | nil =>
    intro vars doms d' agn fc c _ hc
    simp at hc
  | cons c0 rest ih =>
    intro vars doms d' agn fc c h hc
    simp only [evalAll] at h
    cases he : evalConstr c0 vars doms agn fc with
    | none => rw [he] at h; cases h
    | some d1 =>
      rw [he] at h
      rcases List.mem_cons.mp hc with rfl | hmem
      · exact ⟨doms, d1, he⟩
      · exact ih h hmem

/- ## Lemmas: what the search emits -/

/-- Structure of every assignment emitted by the search below a given node:
its keys are the already-assigned keys followed by the remaining variables in
order; every binding either was already present or draws its value from the
current domain of its guest; and (except for the degenerate no-remaining-
variables call) the full constraint evaluation succeeded on the emitted
assignment itself. -/
theorem searchAux_spec (cs : List Constr) (allVars : List String) :
    ∀ (rest : List String) (doms : Domains) (a sol : Assignment),
      sol ∈ searchAux cs allVars rest doms a →
      sol.map Prod.fst = a.map Prod.fst ++ rest
      ∧ (∀ p ∈ sol, p ∈ a ∨ p.2 ∈ doms p.1)
      ∧ (sol = a ∨ ∃ d0 d1, evalAll cs allVars d0 sol true = some d1) := by
  intro rest
  induction rest with
  | nil =>
    intro doms a sol h
    simp only [searchAux, List.mem_singleton] at h
    subst h
    refine ⟨by simp, fun p hp => Or.inl hp, Or.inl rfl⟩
  | cons v rest ih =>
    intro doms a sol h
    simp only [searchAux, List.mem_flatMap] at h
    obtain ⟨t, ht, hbranch⟩ := h
    cases hE : evalAll cs allVars doms (a ++ [(v, t)]) true with
    | none =>
      rw [hE] at hbranch
      simp at hbranch
    | some doms' =>
      rw [hE] at hbranch
      simp only [] at hbranch
      by_cases hskip : rest.any (fun g => (doms' g).isEmpty)
      · rw [if_pos hskip] at hbranch
        simp at hbranch
      · rw [if_neg hskip] at hbranch
        obtain ⟨h1, h2, h3⟩ := ih doms' (a ++ [(v, t)]) sol hbranch
        refine ⟨?_, ?_, ?_⟩
        · rw [h1]
          simp
        · intro p hp
          rcases h2 p hp with hpa | hpd
          · rcases List.mem_append.mp hpa with hpa' | hpv
            · exact Or.inl hpa'
            · right
              have : p = (v, t) := List.mem_singleton.mp hpv
              subst this
              exact ht
          · exact Or.inr (evalAll_subset hE p.1 hpd)
        · rcases h3 with rfl | hdone
          · exact Or.inr ⟨doms, doms', hE⟩
          · exact Or.inr hdone

theorem getSolutions_keys {cs : List Constr} {guests : List String} {N : Nat}
    {sol : Assignment} (h : sol ∈ getSolutions cs guests N) :
    sol.map Prod.fst = guests := by
  have := (searchAux_spec cs guests guests (fun _ => List.range' 1 N) [] sol h).1
  simpa using this

theorem getSolutions_values {cs : List Constr} {guests : List String} {N : Nat}
    {sol : Assignment} (h : sol ∈ getSolutions cs guests N) :
    ∀ p ∈ sol, 1 ≤ p.2 ∧ p.2 ≤ N := by
  intro p hp
  have h2 := (searchAux_spec cs guests guests (fun _ => List.range' 1 N) [] sol h).2.1 p hp
  rcases h2 with hpa | hpd
  · simp at hpa
  · have := List.mem_range'_1.mp hpd
    omega

theorem getSolutions_checked {cs : List Constr} {guests : List String} {N : Nat}
    {sol : Assignment} (h : sol ∈ getSolutions cs guests N) :
    guests = [] ∨ ∃ d0 d1, evalAll cs guests d0 sol true = some d1 := by
  have hspec := searchAux_spec cs guests guests (fun _ => List.range' 1 N) [] sol h
  rcases hspec.2.2 with rfl | hdone
  · left
    have := hspec.1
    simpa using this.symm
  · exact Or.inr hdone

theorem getSolutions_lookup {cs : List Constr} {guests : List String} {N : Nat}
    {sol : Assignment} {g : String} (h : sol ∈ getSolutions cs guests N)
    (hg : g ∈ guests) : ∃ t, alookup sol g = some t :=
  alookup_isSome_of_mem_keys ((getSolutions_keys h).symm ▸ hg)

/- ## Lemmas: problem construction -/

theorem addPairConstraints_ok {mk : String → String → Constr} {guests : List String} :
    ∀ {l : List (String × String)} {cs : List Constr},
      addPairConstraints mk guests l = .ok cs →
      (∀ c ∈ cs, ∃ p ∈ l, c = mk p.1 p.2)
      ∧ (∀ p ∈ l, p.1 ∈ guests ∧ p.2 ∈ guests ∧ mk p.1 p.2 ∈ cs) := by
  intro l
  induction l with
  | nil =>
    intro cs h
    simp only [addPairConstraints] at h
    cases h
    exact ⟨by simp, by simp⟩
  | cons pr rest ih =>
    intro cs h
    obtain ⟨a, b⟩ := pr
    simp only [addPairConstraints] at h
    by_cases hmem : a ∈ guests ∧ b ∈ guests
    · rw [if_pos hmem] at h
      cases hrec : addPairConstraints mk guests rest with
      | error e => rw [hrec] at h; cases h
      | ok cs0 =>
        rw [hrec] at h
        simp only [] at h
        cases h
        obtain ⟨ih1, ih2⟩ := ih hrec
        constructor
        · intro c hc
          rcases List.mem_cons.mp hc with rfl | hc'
          · exact ⟨(a, b), List.mem_cons_self _ _, rfl⟩
          · obtain ⟨p, hp, hcp⟩ := ih1 c hc'
            exact ⟨p, List.mem_cons_of_mem _ hp, hcp⟩
        · intro p hp
          rcases List.mem_cons.mp hp with rfl | hp'
          · exact ⟨hmem.1, hmem.2, List.mem_cons_self _ _⟩
          · obtain ⟨hg1, hg2, hcs⟩ := ih2 p hp'
            exact ⟨hg1, hg2, List.mem_cons_of_mem _ hcs⟩
    · rw [if_neg hmem] at h
      by_cases ha : a ∉ guests
      · rw [if_pos ha] at h; cases h
      · rw [if_neg ha] at h; cases h

theorem addPairConstraints_error {mk : String → String → Constr} {guests : List String} :
    ∀ {l : List (String × String)} {msg : String},
      addPairConstraints mk guests l = .error msg →
      ∃ g, g ∉ guests ∧ msg = g ++ " not in guests!"
        ∧ ∃ q ∈ l, q.1 = g ∨ q.2 = g := by
  intro l
  induction l with
  | nil =>
    intro msg h
    simp only [addPairConstraints] at h
    cases h
  | cons pr rest ih =>
    intro msg h
    obtain ⟨a, b⟩ := pr
    simp only [addPairConstraints] at h
    by_cases hmem : a ∈ guests ∧ b ∈ guests
    · rw [if_pos hmem] at h
      cases hrec : addPairConstraints mk guests rest with
      | error e =>
        rw [hrec] at h
        simp only [] at h
        cases h
        obtain ⟨g, hg, hmsg, q, hq, hqg⟩ := ih hrec
        exact ⟨g, hg, hmsg, q, List.mem_cons_of_mem _ hq, hqg⟩
      | ok cs0 =>
        rw [hrec] at h
        simp only [] at h
        cases h
    · rw [if_neg hmem] at h
      by_cases ha : a ∉ guests
      · rw [if_pos ha] at h
        cases h
        exact ⟨a, ha, rfl, (a, b), List.mem_cons_self _ _, Or.inl rfl⟩
      · rw [if_neg ha] at h
        cases h
        have hb : b ∉ guests := fun hbg => hmem ⟨not_not.mp ha, hbg⟩
        exact ⟨b, hb, rfl, (a, b), List.mem_cons_self _ _, Or.inr rfl⟩

theorem addPairConstraints_bad {mk : String → String → Constr} {guests : List String} :
    ∀ {l : List (String × String)},
      (∃ p ∈ l, p.1 ∉ guests ∨ p.2 ∉ guests) →
      ∃ msg, addPairConstraints mk guests l = .error msg := by
  intro l
  induction l with
  | nil =>
    intro ⟨p, hp, _⟩
    simp at hp
  | cons pr rest ih =>
    intro ⟨p, hp, hbad⟩
    obtain ⟨a, b⟩ := pr
    by_cases hmem : a ∈ guests ∧ b ∈ guests
    · have hp' : p ∈ rest := by
        rcases List.mem_cons.mp hp with rfl | hp'
        · rcases hbad with hb1 | hb2
          · exact absurd hmem.1 hb1
          · exact absurd hmem.2 hb2
        · exact hp'
      obtain ⟨msg, hmsg⟩ := ih ⟨p, hp', hbad⟩
      refine ⟨msg, ?_⟩
      simp only [addPairConstraints]
      rw [if_pos hmem, hmsg]
    · by_cases ha : a ∉ guests
      · refine ⟨a ++ " not in guests!", ?_⟩
        simp only [addPairConstraints]
        rw [if_neg hmem, if_pos ha]
      · refine ⟨b ++ " not in guests!", ?_⟩
        simp only [addPairConstraints]
        rw [if_neg hmem, if_neg ha]

theorem buildProblem_ok {guests : List String} {N : Nat}
    {prefer avoid : List (String × String)} {cs : List Constr}
    (h : buildProblem guests N prefer avoid = .ok cs) :
    ∃ ps avs, addPairConstraints Constr.sameTable guests prefer = .ok ps
      ∧ addPairConstraints Constr.differentTable guests avoid = .ok avs
      ∧ cs = Constr.maxPerTable ((guests.length + 1) / N) :: (ps ++ avs) := by
  unfold buildProblem at h
  cases hp : addPairConstraints Constr.sameTable guests prefer with
  | error e => rw [hp] at h; cases h
  | ok ps =>
    rw [hp] at h
    simp only [] at h
    cases ha : addPairConstraints Constr.differentTable guests avoid with
    | error e => rw [ha] at h; cases h
    | ok avs =>
      rw [ha] at h
      simp only [] at h
      cases h
      exact ⟨ps, avs, rfl, rfl, rfl⟩

theorem buildProblem_error_left {guests : List String} {N : Nat}
    {prefer avoid : List (String × String)} {msg : String}
    (hp : addPairConstraints Constr.sameTable guests prefer = .error msg) :
    buildProblem guests N prefer avoid = .error msg := by
  unfold buildProblem
  rw [hp]

theorem buildProblem_error_right {guests : List String} {N : Nat}
    {prefer avoid : List (String × String)} {ps : List Constr} {msg : String}
    (hp : addPairConstraints Constr.sameTable guests prefer = .ok ps)
    (ha : addPairConstraints Constr.differentTable guests avoid = .error msg) :
    buildProblem guests N prefer avoid = .error msg := by
  unfold buildProblem
  rw [hp]
  simp only []
  rw [ha]

/- ## Bridge: counting assigned guests per table -/

theorem filter_keys_lookup : ∀ (sol : Assignment), (sol.map Prod.fst).Nodup → ∀ t,
    ((sol.map Prod.fst).filter (fun v => alookup sol v = some t)).length
      = (sol.filter (fun p => p.2 = t)).length := by
  intro sol
  induction sol with
  | nil => intro _ t; simp
  | cons p rest ih =>
    intro hnd t
    obtain ⟨g, tv⟩ := p
    simp only [List.map_cons, List.nodup_cons] at hnd
    obtain ⟨hg, hndr⟩ := hnd
    have hl : alookup ((g, tv) :: rest) g = some tv := by simp [alookup]
    have hcong : (rest.map Prod.fst).filter (fun v => alookup ((g, tv) :: rest) v = some t)
        = (rest.map Prod.fst).filter (fun v => alookup rest v = some t) := by
      apply List.filter_congr
      intro v hv
      have hvg : ¬ g = v := fun hh => hg (hh ▸ hv)
      simp [alookup, hvg]
    by_cases htv : tv = t
    · subst htv
      rw [List.map_cons, List.filter_cons_of_pos (by simp [hl]),
        List.filter_cons_of_pos (by simp)]
      simp only [List.length_cons]
      rw [hcong, ih hndr tv]
    · rw [List.map_cons, List.filter_cons_of_neg (by simp [hl, htv]),
        List.filter_cons_of_neg (by simp [htv])]
      rw [hcong, ih hndr t]

/- ## Claim theorems -/

/-- C1: for every Problem holding the capacity constraint with limit `k` and
every Solution emitted by the search, every table id `t` in `[1, N]` seats at
most `k` guests in that Solution. -/
theorem solution_capacity_le {cs : List Constr} {guests : List String}
    {N k : Nat} {sol : Assignment}
    (hk : Constr.maxPerTable k ∈ cs) (hnd : guests.Nodup)
    (hsol : sol ∈ getSolutions cs guests N) :
    ∀ t, 1 ≤ t → t ≤ N → (sol.filter (fun p => p.2 = t)).length ≤ k := by
  intro t _ _
  rcases getSolutions_checked hsol with hnil | ⟨d0, d1, hev⟩
  · have hkeys := getSolutions_keys hsol
    rw [hnil] at hkeys
    have hsolnil : sol = [] := List.map_eq_nil_iff.mp hkeys
    subst hsolnil
    simp
  · obtain ⟨d2, d3, hc⟩ := evalAll_constr hev hk
    simp only [evalConstr] at hc
    obtain ⟨c', hcheap⟩ := maxPerTableCall_cheap hc
    have hle := maxCheapLoop_le k sol guests _ c' (fun _ => Nat.zero_le k) hcheap t
    have hcount := maxCheapLoop_count k sol guests _ c' hcheap t
    have hkeys := getSolutions_keys hsol
    have hnd' : (sol.map Prod.fst).Nodup := by rw [hkeys]; exact hnd
    have hbridge := filter_keys_lookup sol hnd' t
    rw [hkeys] at hbridge
    omega

/-- C2: every Solution emitted by the search assigns every guest of the
Problem exactly once, to a single table id in `[1, N]`. -/
theorem solution_complete_assignment {cs : List Constr} {guests : List String}
    {N : Nat} {sol : Assignment}
    (hnd : guests.Nodup) (hsol : sol ∈ getSolutions cs guests N) :
    ∀ g ∈ guests, (sol.map Prod.fst).count g = 1
      ∧ ∃ t, alookup sol g = some t ∧ 1 ≤ t ∧ t ≤ N := by
  intro g hg
  have hkeys := getSolutions_keys hsol
  constructor
  · rw [hkeys]
    exact List.count_eq_one_of_mem hnd hg
  · obtain ⟨t, ht⟩ := getSolutions_lookup hsol hg
    have hmem := alookup_mem ht
    have hb := getSolutions_values hsol (g, t) hmem
    exact ⟨t, ht, hb.1, hb.2⟩

/-- C2 witness: a concrete emitted Solution of a two-guest, two-table run. -/
theorem solution_complete_assignment_witness :
    (([("A", 1), ("B", 2)] : Assignment).map Prod.fst).count "A" = 1
    ∧ ∃ t, alookup ([("A", 1), ("B", 2)] : Assignment) "A" = some t ∧ 1 ≤ t ∧ t ≤ 2 :=
  @solution_complete_assignment [Constr.maxPerTable 1] ["A", "B"] 2
    [("A", 1), ("B", 2)] (by decide) (by decide) "A" (by decide)

/-- C1 witness: the same concrete run, table 1 seats at most one guest. -/
theorem solution_capacity_le_witness :
    (([("A", 1), ("B", 2)] : Assignment).filter (fun p => p.2 = 1)).length ≤ 1 :=
  @solution_capacity_le [Constr.maxPerTable 1] ["A", "B"] 2 1
    [("A", 1), ("B", 2)] (by decide) (by decide) (by decide) 1 (by decide) (by decide)

/-- C5: for every registered equality (prefer) pair, every emitted Solution
seats the two guests at the same table. -/
theorem equality_pairs_same_table {guests : List String} {N : Nat}
    {prefer avoid : List (String × String)} {cs : List Constr}
    {a b : String} {sol : Assignment}
    (hb : buildProblem guests N prefer avoid = .ok cs)
    (hp : (a, b) ∈ prefer) (hsol : sol ∈ getSolutions cs guests N) :
    ∃ t, alookup sol a = some t ∧ alookup sol b = some t := by
  obtain ⟨ps, avs, hps, havs, rfl⟩ := buildProblem_ok hb
  obtain ⟨_, hin2⟩ := addPairConstraints_ok hps
  obtain ⟨hag, hbg, hcmem⟩ := hin2 (a, b) hp
  have hcs : Constr.sameTable a b
      ∈ Constr.maxPerTable ((guests.length + 1) / N) :: (ps ++ avs) :=
    List.mem_cons_of_mem _ (List.mem_append.mpr (Or.inl hcmem))
  rcases getSolutions_checked hsol with hnil | ⟨d0, d1, hev⟩
  · rw [hnil] at hag
    simp at hag
  · obtain ⟨ta, hta⟩ := getSolutions_lookup hsol hag
    obtain ⟨tb, htb⟩ := getSolutions_lookup hsol hbg
    obtain ⟨d2, d3, hc⟩ := evalAll_constr hev hcs
    simp only [evalConstr] at hc
    have heq := sameTableCall_both_assigned hta htb hc
    exact ⟨ta, hta, heq ▸ htb⟩

/-- C5 witness: guests A and B with a prefer pair on one table. -/
theorem equality_pairs_same_table_witness :
    ∃ t, alookup ([("A", 1), ("B", 1)] : Assignment) "A" = some t
      ∧ alookup ([("A", 1), ("B", 1)] : Assignment) "B" = some t :=
  @equality_pairs_same_table ["A", "B"] 1 [("A", "B")] []
    [Constr.maxPerTable 3, Constr.sameTable "A" "B"] "A" "B"
    [("A", 1), ("B", 1)] rfl (by decide) (by decide)

/-- C6: for every registered inequality (avoid) pair, every emitted Solution
seats the two guests at different tables. -/
theorem inequality_pairs_different_table {guests : List String} {N : Nat}
    {prefer avoid : List (String × String)} {cs : List Constr}
    {a b : String} {sol : Assignment}
    (hb : buildProblem guests N prefer avoid = .ok cs)
    (hp : (a, b) ∈ avoid) (hsol : sol ∈ getSolutions cs guests N) :
    ∃ ta tb, alookup sol a = some ta ∧ alookup sol b = some tb ∧ ta ≠ tb := by
  obtain ⟨ps, avs, hps, havs, rfl⟩ := buildProblem_ok hb
  obtain ⟨_, hin2⟩ := addPairConstraints_ok havs
  obtain ⟨hag, hbg, hcmem⟩ := hin2 (a, b) hp
  have hcs : Constr.differentTable a b
      ∈ Constr.maxPerTable ((guests.length + 1) / N) :: (ps ++ avs) :=
    List.mem_cons_of_mem _ (List.mem_append.mpr (Or.inr hcmem))
  rcases getSolutions_checked hsol with hnil | ⟨d0, d1, hev⟩
  · rw [hnil] at hag
    simp at hag
  · obtain ⟨ta, hta⟩ := getSolutions_lookup hsol hag
    obtain ⟨tb, htb⟩ := getSolutions_lookup hsol hbg
    obtain ⟨d2, d3, hc⟩ := evalAll_constr hev hcs
    simp only [evalConstr] at hc
    have hne := differentTableCall_both_assigned hta htb hc
    exact ⟨ta, tb, hta, htb, fun hh => hne hh.symm⟩

/-- C6 witness: guests A and B with an avoid pair across two tables. -/
theorem inequality_pairs_different_table_witness :
    ∃ ta tb, alookup ([("A", 1), ("B", 2)] : Assignment) "A" = some ta
      ∧ alookup ([("A", 1), ("B", 2)] : Assignment) "B" = some tb ∧ ta ≠ tb :=
  @inequality_pairs_different_table ["A", "B"] 2 [] [("A", "B")]
    [Constr.maxPerTable 1, Constr.differentTable "A" "B"] "A" "B"
    [("A", 1), ("B", 2)] rfl (by decide) (by decide)

/-- C8: a prefer/avoid pair referencing a name outside the guest set makes the
run fail with an exception naming an unknown guest, and a successfully built
Problem only ever contains pair constraints over declared guests. -/
theorem unknown_guest_fatal :
    (∀ (guests : List String) (N : Nat) (prefer avoid : List (String × String)),
        (∃ p, (p ∈ prefer ∨ p ∈ avoid) ∧ (p.1 ∉ guests ∨ p.2 ∉ guests)) →
        ∃ g, g ∉ guests
          ∧ (∃ q, (q ∈ prefer ∨ q ∈ avoid) ∧ (q.1 = g ∨ q.2 = g))
          ∧ buildProblem guests N prefer avoid = .error (g ++ " not in guests!"))
    ∧ (∀ (guests : List String) (N : Nat) (prefer avoid : List (String × String))
         (cs : List Constr) (a b : String),
        buildProblem guests N prefer avoid = .ok cs →
        (Constr.sameTable a b ∈ cs ∨ Constr.differentTable a b ∈ cs) →
        a ∈ guests ∧ b ∈ guests) := by
  constructor
  · intro guests N prefer avoid ⟨p, hploc, hbad⟩
    cases hp : addPairConstraints Constr.sameTable guests prefer with
    | error msg =>
      obtain ⟨g, hg, hmsg, q, hq, hqg⟩ := addPairConstraints_error hp
      refine ⟨g, hg, ⟨q, Or.inl hq, hqg⟩, ?_⟩
      rw [← hmsg]
      exact buildProblem_error_left hp
    | ok ps =>
      obtain ⟨_, hin2⟩ := addPairConstraints_ok hp
      have hpav : p ∈ avoid := by
        rcases hploc with hpp | hpa
        · obtain ⟨h1, h2, _⟩ := hin2 p hpp
          rcases hbad with hb1 | hb2
          · exact absurd h1 hb1
          · exact absurd h2 hb2
        · exact hpa
      obtain ⟨msg, hmsg⟩ :=
        @addPairConstraints_bad Constr.differentTable guests avoid ⟨p, hpav, hbad⟩
      obtain ⟨g, hg, hmsgeq, q, hq, hqg⟩ := addPairConstraints_error hmsg
      refine ⟨g, hg, ⟨q, Or.inr hq, hqg⟩, ?_⟩
      rw [← hmsgeq]
      exact buildProblem_error_right hp hmsg
  · intro guests N prefer avoid cs a b hb hc
    obtain ⟨ps, avs, hps, havs, rfl⟩ := buildProblem_ok hb
    obtain ⟨hin1p, hin2p⟩ := addPairConstraints_ok hps
    obtain ⟨hin1a, hin2a⟩ := addPairConstraints_ok havs
    rcases hc with hc | hc
    · rcases List.mem_cons.mp hc with heq | hmem
      · simp at heq
      · rcases List.mem_append.mp hmem with hmp | hma
        · obtain ⟨p, hp, hcp⟩ := hin1p _ hmp
          simp only [Constr.sameTable.injEq] at hcp
          obtain ⟨ha, hb2⟩ := hcp
          subst ha
          subst hb2
          exact ⟨(hin2p p hp).1, (hin2p p hp).2.1⟩
        · obtain ⟨p, hp, hcp⟩ := hin1a _ hma
          simp at hcp
    · rcases List.mem_cons.mp hc with heq | hmem
      · simp at heq
      · rcases List.mem_append.mp hmem with hmp | hma
        · obtain ⟨p, hp, hcp⟩ := hin1p _ hmp
          simp at hcp
        · obtain ⟨p, hp, hcp⟩ := hin1a _ hma
          simp only [Constr.differentTable.injEq] at hcp
          obtain ⟨ha, hb2⟩ := hcp
          subst ha
          subst hb2
          exact ⟨(hin2a p hp).1, (hin2a p hp).2.1⟩

/-- C8 witness: a prefer pair naming the unknown guest Z aborts the run. -/
theorem unknown_guest_fatal_witness :
    ∃ g, g ∉ (["A"] : List String)
      ∧ (∃ q, (q ∈ ([("A", "Z")] : List (String × String))
              ∨ q ∈ ([] : List (String × String)))
          ∧ (q.1 = g ∨ q.2 = g))
      ∧ buildProblem ["A"] 4 [("A", "Z")] [] = .error (g ++ " not in guests!") :=
  unknown_guest_fatal.1 ["A"] 4 [("A", "Z")] []
    ⟨("A", "Z"), Or.inl (by decide), Or.inr (by decide)⟩

/-- C10: a `DifferentTableConstraint` over the degenerate pair `(a, a)` is
Violated as soon as `a` is assigned, so an avoid pair naming the same known
guest twice yields zero Solutions, while a `SameTableConstraint` over `(a, a)`
is always Satisfiable and leaves every domain untouched. -/
theorem self_pair_constraints (a : String) :
    (∀ (doms : Domains) (agn : Assignment) (fc : Bool) (t : Nat),
        alookup agn a = some t → differentTableCall a a doms agn fc = none)
    ∧ (∀ (guests : List String) (N : Nat) (prefer avoid : List (String × String))
         (cs : List Constr), buildProblem guests N prefer avoid = .ok cs →
        (a, a) ∈ avoid → getSolutions cs guests N = [])
    ∧ (∀ (doms : Domains) (agn : Assignment) (fc : Bool),
        sameTableCall a a doms agn fc = some doms) := by
  refine ⟨fun doms agn fc t h1 => differentTableCall_self_none h1, ?_,
    fun doms agn fc => sameTableCall_self⟩
  intro guests N prefer avoid cs hb hav
  obtain ⟨ps, avs, hps, havs, rfl⟩ := buildProblem_ok hb
  obtain ⟨_, hin2⟩ := addPairConstraints_ok havs
  obtain ⟨hag, _, hcmem⟩ := hin2 (a, a) hav
  have hcs : Constr.differentTable a a
      ∈ Constr.maxPerTable ((guests.length + 1) / N) :: (ps ++ avs) :=
    List.mem_cons_of_mem _ (List.mem_append.mpr (Or.inr hcmem))
  rw [List.eq_nil_iff_forall_not_mem]
  intro sol hsol
  rcases getSolutions_checked hsol with hnil | ⟨d0, d1, hev⟩
  · rw [hnil] at hag
    simp at hag
  · obtain ⟨t, ht⟩ := getSolutions_lookup hsol hag
    obtain ⟨d2, d3, hc⟩ := evalAll_constr hev hcs
    simp only [evalConstr] at hc
    rw [differentTableCall_self_none ht] at hc
    cases hc

/-- C10 witness: the degenerate pair at concrete inputs. -/
theorem self_pair_constraints_witness :
    differentTableCall "A" "A" (fun _ => [1, 2]) [("A", 1)] true = none
    ∧ getSolutions [Constr.maxPerTable 1, Constr.differentTable "A" "A"] ["A"] 2 = []
    ∧ sameTableCall "A" "A" (fun _ => [1, 2]) [("A", 1)] true = some (fun _ => [1, 2]) :=
  ⟨(self_pair_constraints "A").1 (fun _ => [1, 2]) [("A", 1)] true 1 rfl,
    (self_pair_constraints "A").2.1 ["A"] 2 [] [("A", "A")]
      [Constr.maxPerTable 1, Constr.differentTable "A" "A"] rfl (by decide),
    (self_pair_constraints "A").2.2 (fun _ => [1, 2]) [("A", 1)] true⟩

/-- C3: the forward-check branch of the capacity constraint never prunes.
At the concrete state below, table 1 already seats `k = 1` guests (guest A),
yet table 1 is not hidden from unassigned guest B's domain — the guard
`counter[v] > max_per_table` cannot fire once the cheap check has passed. -/
theorem capacity_forwardcheck_never_prunes :
    (([("A", 1)] : Assignment).filter (fun p => p.2 = 1)).length = 1
    ∧ (maxPerTableCall 1 ["A", "B"] (fun _ => [1, 2]) [("A", 1)] true).map
        (fun d => d "B") = some [1, 2] :=
  ⟨rfl, rfl⟩

/-- C4 counterexample: a same-table (and a different-table) forward check that
empties the other guest's domain still returns Satisfiable (`some _`), not
Violated (`none`), contradicting the claim. -/
theorem empty_domain_not_violated_cex :
    (sameTableCall "A" "B" (fun g => if g = "B" then [1] else [1, 2])
        [("A", 2)] true).map (fun d => d "B") = some []
    ∧ (differentTableCall "A" "B" (fun g => if g = "B" then [2] else [1, 2])
        [("A", 2)] true).map (fun d => d "B") = some [] :=
  ⟨rfl, rfl⟩

/-- C4 amended: when forward checking by a pair constraint empties the other
guest's domain, the evaluation still returns Satisfiable with the emptied
domain; the branch nevertheless fails, because the search never extends a
node once a still-unassigned variable's domain is empty. -/
theorem empty_domain_satisfiable_search_fails :
    (∀ (doms : Domains) (agn : Assignment) (a b : String) (t : Nat),
        alookup agn a = some t → alookup agn b = none → t ∉ doms b →
        ∃ d', sameTableCall a b doms agn true = some d' ∧ d' b = [])
    ∧ (∀ (doms : Domains) (agn : Assignment) (a b : String) (t : Nat),
        alookup agn a = some t → alookup agn b = none → (∀ v ∈ doms b, v = t) →
        ∃ d', differentTableCall a b doms agn true = some d' ∧ d' b = [])
    ∧ (∀ (cs : List Constr) (allVars : List String) (g : String)
         (rest : List String) (doms : Domains) (a : Assignment),
        g ∈ rest → doms g = [] → searchAux cs allVars rest doms a = []) := by
  refine ⟨?_, ?_, ?_⟩
  · intro doms agn a b t h1 h2 hnot
    have hcall : sameTableCall a b doms agn true
        = some (updateDomain doms b (hideAllNe t (doms b) (doms b))) := by
      simp [sameTableCall, h1, h2]
    refine ⟨_, hcall, ?_⟩
    simp only [updateDomain, if_pos rfl]
    exact hideAllNe_self_eq_nil t _ hnot
  · intro doms agn a b t h1 h2 hall
    have hcall : differentTableCall a b doms agn true
        = some (updateDomain doms b (hideAllEq t (doms b) (doms b))) := by
      simp [differentTableCall, h1, h2]
    refine ⟨_, hcall, ?_⟩
    simp only [updateDomain, if_pos rfl]
    exact hideAllEq_self_eq_nil t _ hall
  · intro cs allVars g rest
    induction rest with
    | nil =>
      intro doms a hg _
      simp at hg
    | cons v rest' ih =>
      intro doms a hg hdg
      rcases List.mem_cons.mp hg with rfl | hg'
      · simp [searchAux, hdg]
      · rw [List.eq_nil_iff_forall_not_mem]
        intro sol hsol
        simp only [searchAux, List.mem_flatMap] at hsol
        obtain ⟨t, ht, hbr⟩ := hsol
        cases hE : evalAll cs allVars doms (a ++ [(v, t)]) true with
        | none =>
          rw [hE] at hbr
          simp at hbr
        | some doms' =>
          rw [hE] at hbr
          simp only [] at hbr
          have hsub := evalAll_subset hE g
          rw [hdg] at hsub
          have hnil : doms' g = [] := List.eq_nil_of_subset_nil hsub
          have hskip : rest'.any (fun x => (doms' x).isEmpty) = true :=
            List.any_eq_true.mpr ⟨g, hg', by simp [hnil]⟩
          rw [if_pos hskip] at hbr
          simp at hbr

/-- C4 amended witness: concrete emptied-domain evaluations and a search node
whose remaining variable has an empty domain. -/
theorem empty_domain_satisfiable_search_fails_witness :
    (sameTableCall "A" "B" (fun g => if g = "B" then [3] else [1, 2, 3])
        [("A", 2)] true).map (fun d => d "B") = some []
    ∧ (differentTableCall "C" "D" (fun g => if g = "D" then [2] else [1, 2])
        [("C", 2)] true).map (fun d => d "D") = some []
    ∧ searchAux [] ["A", "B"] ["B"] (fun _ => []) [("A", 1)] = [] := by
  refine ⟨?_, ?_, ?_⟩
  · obtain ⟨d', hd, hb⟩ := empty_domain_satisfiable_search_fails.1
      (fun g => if g = "B" then [3] else [1, 2, 3]) [("A", 2)] "A" "B" 2
      rfl rfl (by decide)
    rw [hd]
    simp [hb]
  · obtain ⟨d', hd, hb⟩ := empty_domain_satisfiable_search_fails.2.1
      (fun g => if g = "D" then [2] else [1, 2]) [("C", 2)] "C" "D" 2
      rfl rfl (by decide)
    rw [hd]
    simp [hb]
  · exact empty_domain_satisfiable_search_fails.2.2 [] ["A", "B"] "B" ["B"]
      (fun _ => []) [("A", 1)] (by decide) rfl

/-- C7 counterexample: with 5 guests and 4 tables, `main` supplies capacity
`int((5+1)/4) = 1` while `ceil(5/4) = 2`. -/
theorem capacity_not_ceil_cex :
    buildProblem ["A", "B", "C", "D", "E"] 4 [] [] = .ok [Constr.maxPerTable 1]
    ∧ specCeil (["A", "B", "C", "D", "E"] : List String).length 4 = 2
    ∧ (1 : Nat) ≠ 2 :=
  ⟨rfl, rfl, by decide⟩

/-- C7 amended: the capacity handed to the capacity constraint is
`⌊(|guests| + 1) / N⌋`, the source's `int((total_guests+1)/num_tables)`,
not `ceil(|guests| / N)`. -/
theorem capacity_is_floor_formula {guests : List String} {N : Nat}
    {prefer avoid : List (String × String)} {cs : List Constr}
    (h : buildProblem guests N prefer avoid = .ok cs) :
    cs.head? = some (Constr.maxPerTable ((guests.length + 1) / N)) := by
  obtain ⟨ps, avs, _, _, rfl⟩ := buildProblem_ok h
  rfl

/-- C7 amended witness: the 5-guest, 4-table run supplies capacity 1. -/
theorem capacity_is_floor_formula_witness :
    ([Constr.maxPerTable 1] : List Constr).head?
      = some (Constr.maxPerTable
          (((["A", "B", "C", "D", "E"] : List String).length + 1) / 4)) :=
  @capacity_is_floor_formula ["A", "B", "C", "D", "E"] 4 [] []
    [Constr.maxPerTable 1] rfl

/- ## Lemmas: swap_kv_list -/

theorem updList_keys (t : Nat) (g : String) :
    ∀ r : List (Nat × List String), (updList r t g).map Prod.fst = r.map Prod.fst := by
  intro r
  induction r with
  | nil => rfl
  | cons p rest ih =>
    obtain ⟨t', l⟩ := p
    simp only [updList]
    by_cases ht : t' = t
    · rw [if_pos ht]
      simp
    · rw [if_neg ht]
      simp [ih]

theorem updList_nonempty {t : Nat} {g : String} :
    ∀ {r : List (Nat × List String)}, (∀ p ∈ r, p.2 ≠ []) →
      ∀ p ∈ updList r t g, p.2 ≠ [] := by
  intro r
  induction r with
  | nil =>
    intro _ p hp
    simp [updList] at hp
  | cons q rest ih =>
    intro hne p hp
    obtain ⟨t', l⟩ := q
    simp only [updList] at hp
    by_cases ht : t' = t
    · rw [if_pos ht] at hp
      rcases List.mem_cons.mp hp with rfl | hp'
      · simp
      · exact hne p (List.mem_cons_of_mem _ hp')
    · rw [if_neg ht] at hp
      rcases List.mem_cons.mp hp with rfl | hp'
      · exact hne (t', l) (List.mem_cons_self _ _)
      · exact ih (fun q hq => hne q (List.mem_cons_of_mem _ hq)) p hp'

theorem entriesOf_append (r1 r2 : List (Nat × List String)) :
    entriesOf (r1 ++ r2) = entriesOf r1 ++ entriesOf r2 := by
  simp [entriesOf]

theorem updList_entries_perm (g : String) :
    ∀ (r : List (Nat × List String)) (t : Nat) (l0 : List String),
      alookup r t = some l0 →
      entriesOf (updList r t g) ~ (g, t) :: entriesOf r := by
  intro r
  induction r with
  | nil =>
    intro t l0 h
    simp [alookup] at h
  | cons p rest ih =>
    intro t l0 h
    obtain ⟨t', l⟩ := p
    simp only [updList]
    by_cases ht : t' = t
    · subst ht
      rw [if_pos rfl]
      calc entriesOf ((t', l ++ [g]) :: rest)
          = l.map (fun x => (x, t')) ++ ((g, t') :: entriesOf rest) := by
            simp [entriesOf]
        _ ~ (g, t') :: (l.map (fun x => (x, t')) ++ entriesOf rest) :=
            List.perm_middle
        _ = (g, t') :: entriesOf ((t', l) :: rest) := by simp [entriesOf]
    · rw [if_neg ht]
      have hrest : alookup rest t = some l0 := by
        simpa [alookup, ht] using h
      calc entriesOf ((t', l) :: updList rest t g)
          = l.map (fun x => (x, t')) ++ entriesOf (updList rest t g) := by
            simp [entriesOf]
        _ ~ l.map (fun x => (x, t')) ++ ((g, t) :: entriesOf rest) :=
            List.Perm.append_left _ (ih t l0 hrest)
        _ ~ (g, t) :: (l.map (fun x => (x, t')) ++ entriesOf rest) :=
            List.perm_middle
        _ = (g, t) :: entriesOf ((t', l) :: rest) := by simp [entriesOf]

theorem swapStep_entries_perm (r : List (Nat × List String)) (kv : String × Nat) :
    entriesOf (swapStep r kv) ~ kv :: entriesOf r := by
  obtain ⟨g, t⟩ := kv
  cases hl : alookup r t with
  | none =>
    simp only [swapStep, hl]
    rw [entriesOf_append]
    have hone : entriesOf [(t, [g])] = [(g, t)] := by simp [entriesOf]
    rw [hone]
    exact List.perm_append_singleton _ _
  | some l0 =>
    simp only [swapStep, hl]
    exact updList_entries_perm g r t l0 hl

theorem swapStep_keys_nodup {r : List (Nat × List String)}
    (hnd : (r.map Prod.fst).Nodup) (kv : String × Nat) :
    ((swapStep r kv).map Prod.fst).Nodup := by
  obtain ⟨g, t⟩ := kv
  cases hl : alookup r t with
  | none =>
    simp only [swapStep, hl]
    rw [List.map_append]
    refine List.Nodup.append hnd (List.nodup_singleton t) ?_
    intro x hx hx2
    have : x = t := by simpa using hx2
    subst this
    exact (alookup_eq_none r x).mp hl hx
  | some l0 =>
    simp only [swapStep, hl]
    rw [updList_keys]
    exact hnd

theorem swapStep_nonempty {r : List (Nat × List String)}
    (hne : ∀ p ∈ r, p.2 ≠ []) (kv : String × Nat) :
    ∀ p ∈ swapStep r kv, p.2 ≠ [] := by
  obtain ⟨g, t⟩ := kv
  cases hl : alookup r t with
  | none =>
    simp only [swapStep, hl]
    intro p hp
    rcases List.mem_append.mp hp with hp1 | hp2
    · exact hne p hp1
    · have : p = (t, [g]) := List.mem_singleton.mp hp2
      subst this
      simp
  | some l0 =>
    simp only [swapStep, hl]
    exact updList_nonempty hne

theorem foldl_swapStep_entries :
    ∀ (d : List (String × Nat)) (r : List (Nat × List String)),
      entriesOf (d.foldl swapStep r) ~ entriesOf r ++ d := by
  intro d
  induction d with
  | nil => intro r; simp
  | cons kv rest ih =>
    intro r
    simp only [List.foldl_cons]
    calc entriesOf (rest.foldl swapStep (swapStep r kv))
        ~ entriesOf (swapStep r kv) ++ rest := ih (swapStep r kv)
      _ ~ (kv :: entriesOf r) ++ rest :=
          List.Perm.append_right rest (swapStep_entries_perm r kv)
      _ = kv :: (entriesOf r ++ rest) := rfl
      _ ~ entriesOf r ++ kv :: rest := List.perm_middle.symm

theorem foldl_swapStep_keys_nodup :
    ∀ (d : List (String × Nat)) (r : List (Nat × List String)),
      (r.map Prod.fst).Nodup → ((d.foldl swapStep r).map Prod.fst).Nodup := by
  intro d
  induction d with
  | nil => intro r h; exact h
  | cons kv rest ih =>
    intro r h
    exact ih (swapStep r kv) (swapStep_keys_nodup h kv)

theorem foldl_swapStep_nonempty :
    ∀ (d : List (String × Nat)) (r : List (Nat × List String)),
      (∀ p ∈ r, p.2 ≠ []) → ∀ p ∈ d.foldl swapStep r, p.2 ≠ [] := by
  intro d
  induction d with
  | nil => intro r h; exact h
  | cons kv rest ih =>
    intro r h
    exact ih (swapStep r kv) (swapStep_nonempty h kv)

theorem swap_kv_list_entries_perm (d : List (String × Nat)) :
    entriesOf (swap_kv_list d) ~ d := by
  have := foldl_swapStep_entries d []
  simpa [swap_kv_list, entriesOf] using this

theorem mem_entriesOf {r : List (Nat × List String)} {g : String} {t : Nat} :
    (g, t) ∈ entriesOf r ↔ ∃ p ∈ r, p.1 = t ∧ g ∈ p.2 := by
  constructor
  · intro h
    simp only [entriesOf, List.mem_flatMap] at h
    obtain ⟨p, hp, hmem⟩ := h
    simp only [List.mem_map] at hmem
    obtain ⟨x, hx, hxeq⟩ := hmem
    rw [Prod.mk.injEq] at hxeq
    obtain ⟨rfl, rfl⟩ := hxeq
    exact ⟨p, hp, rfl, hx⟩
  · intro ⟨p, hp, hpt, hg⟩
    simp only [entriesOf, List.mem_flatMap]
    exact ⟨p, hp, List.mem_map.mpr ⟨g, hg, by rw [hpt]⟩⟩

theorem entriesOf_length : ∀ r : List (Nat × List String),
    (entriesOf r).length = (r.map (fun p => p.2.length)).sum := by
  intro r
  induction r with
  | nil => rfl
  | cons p rest ih =>
    have h1 : entriesOf (p :: rest) = p.2.map (fun g => (g, p.1)) ++ entriesOf rest := by
      simp [entriesOf]
    rw [h1, List.length_append, List.length_map, List.map_cons, List.sum_cons, ih]

/-- C9: `swap_kv_list` inverts a guest ↦ table mapping without losing or
duplicating anything: every table key of the result is a value of the input,
every guest appears in the list of its own table, every listed guest is a key
of the input, and the lists' total size is the input's key count. -/
theorem swap_kv_list_inverts (d : List (String × Nat))
    (_hnd : (d.map Prod.fst).Nodup) :
    (∀ t ∈ (swap_kv_list d).map Prod.fst, ∃ g, (g, t) ∈ d)
    ∧ (∀ (g : String) (t : Nat), alookup d g = some t →
        ∃ l, alookup (swap_kv_list d) t = some l ∧ g ∈ l)
    ∧ (∀ p ∈ swap_kv_list d, ∀ g ∈ p.2, ∃ t, alookup d g = some t)
    ∧ ((swap_kv_list d).map (fun p => p.2.length)).sum = d.length := by
  have hperm := swap_kv_list_entries_perm d
  have hkeysnd : ((swap_kv_list d).map Prod.fst).Nodup :=
    foldl_swapStep_keys_nodup d [] (by simp)
  have hne : ∀ p ∈ swap_kv_list d, p.2 ≠ [] :=
    foldl_swapStep_nonempty d [] (by simp)
  refine ⟨?_, ?_, ?_, ?_⟩
  · intro t ht
    obtain ⟨p, hp, hpt⟩ := List.mem_map.mp ht
    obtain ⟨g, hg⟩ := List.exists_mem_of_ne_nil _ (hne p hp)
    have hmem : (g, t) ∈ entriesOf (swap_kv_list d) :=
      mem_entriesOf.mpr ⟨p, hp, hpt, hg⟩
    exact ⟨g, hperm.mem_iff.mp hmem⟩
  · intro g t hlk
    have hmem : (g, t) ∈ entriesOf (swap_kv_list d) :=
      hperm.mem_iff.mpr (alookup_mem hlk)
    obtain ⟨p, hp, hpt, hg⟩ := mem_entriesOf.mp hmem
    obtain ⟨pt, pl⟩ := p
    subst hpt
    exact ⟨pl, alookup_eq_some_of_mem hkeysnd hp, hg⟩
  · intro p hp g hg
    have hmem : (g, p.1) ∈ entriesOf (swap_kv_list d) :=
      mem_entriesOf.mpr ⟨p, hp, rfl, hg⟩
    have hd : (g, p.1) ∈ d := hperm.mem_iff.mp hmem
    exact alookup_isSome_of_mem_keys (List.mem_map.mpr ⟨(g, p.1), hd, rfl⟩)
  · rw [← entriesOf_length, hperm.length_eq]

/-- C9 witness: a concrete three-guest mapping. -/
theorem swap_kv_list_inverts_witness :
    ((([("A", 1), ("B", 2), ("C", 1)] : List (String × Nat)).map Prod.fst).Nodup)
    ∧ (∃ l, alookup (swap_kv_list [("A", 1), ("B", 2), ("C", 1)]) 1 = some l
        ∧ "C" ∈ l)
    ∧ ((swap_kv_list [("A", 1), ("B", 2), ("C", 1)]).map
        (fun p => p.2.length)).sum = 3 := by
  have h := swap_kv_list_inverts [("A", 1), ("B", 2), ("C", 1)] (by decide)
  exact ⟨by decide, h.2.1 "C" 1 (by decide), h.2.2.2⟩

end SeatPlanner
